import Mathlib

/-!
# release-promoter: the webhook handler and its debounce scheduler

A shallow embedding of `release-promoter/handler.go`.

* Go's `int64` identifiers are `Int`; none of the code does arithmetic on them.
* Instants and durations are `Nat` nanoseconds, as in Go's `time.Duration`.
* `[]byte` is `List Nat`.
* The Go map `debounceTimer map[string]*time.Timer` is a finite partial function from
  keys to timer handles; a handle is the number the runtime gave the timer.
* The runtime's timers are explicit state: `armed` holds the timers that have neither
  expired nor been stopped, `firing` the timers that expired and whose callback has not
  yet taken the lock.
* Library code the handler calls but does not define (HMAC-SHA256, `json.Unmarshal`,
  the GitHub client) is a parameter, see `Extern`.
-/

namespace Handler

/-! ## Data model -/

/-- Bytes of a request body or of a digest. -/
abbrev Bytes := List Nat

/-- One second, in nanoseconds (`time.Second`). -/
def Second : Nat := 1000000000

/-- The delay passed to `time.AfterFunc` in `scheduleDebounce`: `10*time.Second`. -/
def debounceDelay : Nat := 10 * Second

/-- The four arguments of `scheduleDebounce`, captured by the timer's callback and
handed to `promoteRelease`. -/
structure Args where
  owner : String
  repo : String
  releaseID : Int
  installationID : Int
deriving DecidableEq, Repr

/-- The key of `scheduleDebounce`: `fmt.Sprintf("%s-%s-%d", owner, repo, releaseID)`. -/
def debounceKey (owner repo : String) (releaseID : Int) : String :=
  owner ++ "-" ++ repo ++ "-" ++ toString releaseID

/-- The key the callback of a call with these arguments captures. -/
def Args.key (a : Args) : String := debounceKey a.owner a.repo a.releaseID

/-- A timer made by `time.AfterFunc`: its handle, the variables its callback captured,
and the instant it expires. -/
structure Timer where
  id : Nat
  args : Args
  deadline : Nat
deriving DecidableEq, Repr

/-- The `key` variable captured by the timer's callback. -/
def Timer.key (T : Timer) : String := T.args.key

/-- The `ReleasePromoter` value together with the runtime state the scheduler acts on.
`promoted` lists the `promoteRelease` executions in the order they start, each with the
instant its timer expired. -/
structure ReleasePromoter where
  webhookSecret : String
  debounceTimer : String → Option Nat
  armed : List Timer
  firing : List Timer
  nextTimer : Nat
  promoted : List (Nat × Args)

/-- The promoter as `init` leaves it: an empty map, no timers. -/
def ReleasePromoter.init (secret : String) : ReleasePromoter :=
  { webhookSecret := secret, debounceTimer := fun _ => none, armed := [], firing := [],
    nextTimer := 0, promoted := [] }

/-! ## The debounce scheduler -/

/-- The effect of `timer.Stop()`: an armed timer is disarmed; a timer that has expired
(or was stopped before) is left as it is. -/
def timerStop (id : Nat) (rp : ReleasePromoter) : ReleasePromoter :=
  { rp with armed := rp.armed.filter (fun U => U.id ≠ id) }

/-- The effect of `time.AfterFunc(d, f)` at instant `now`: a new armed timer, whose
handle is returned. -/
def afterFunc (now d : Nat) (a : Args) (rp : ReleasePromoter) : Nat × ReleasePromoter :=
  (rp.nextTimer,
    { rp with armed := rp.armed ++ [{ id := rp.nextTimer, args := a, deadline := now + d }],
              nextTimer := rp.nextTimer + 1 })

/-- The function `scheduleDebounce`, called at instant `now` (the whole body runs under
`debounceMutex`). -/
def scheduleDebounce (now : Nat) (owner repo : String) (releaseID installationID : Int)
    (rp : ReleasePromoter) : ReleasePromoter :=
  let key := debounceKey owner repo releaseID
  let rp1 := match rp.debounceTimer key with
    | some timer => timerStop timer rp
    | none => rp
  let (timer, rp2) := afterFunc now debounceDelay
    { owner := owner, repo := repo, releaseID := releaseID, installationID := installationID } rp1
  { rp2 with debounceTimer := fun k => if k = key then some timer else rp2.debounceTimer k }

/-- The function `clearDebounceTimer`: `delete(rp.debounceTimer, key)` under the lock. -/
def clearDebounceTimer (key : String) (rp : ReleasePromoter) : ReleasePromoter :=
  { rp with debounceTimer := fun k => if k = key then none else rp.debounceTimer k }

/-- A timer expires: the runtime takes it out of the armed timers and starts its
callback, which has not yet run `clearDebounceTimer`. -/
def timerExpires (T : Timer) (rp : ReleasePromoter) : ReleasePromoter :=
  { rp with armed := rp.armed.filter (fun U => U.id ≠ T.id), firing := rp.firing ++ [T] }

/-- The callback handed to `time.AfterFunc`: `clearDebounceTimer(key)`, then
`promoteRelease(owner, repo, releaseID, installationID)`, which is recorded. -/
def timerCallback (T : Timer) (rp : ReleasePromoter) : ReleasePromoter :=
  let rp1 := clearDebounceTimer T.key { rp with firing := rp.firing.filter (fun U => U.id ≠ T.id) }
  { rp1 with promoted := rp1.promoted ++ [(T.deadline, T.args)] }

/-! ### The interleaved model: expiry and callback are separate atomic steps -/

/-- The atomic steps of the scheduler. -/
inductive Event where
  | schedule (now : Nat) (a : Args)
  | expire (id : Nat)
  | callback (id : Nat)
deriving DecidableEq, Repr

/-- One atomic step; `none` when the step is not enabled (no such armed timer to expire,
no such started callback to run). -/
def step (e : Event) (rp : ReleasePromoter) : Option ReleasePromoter :=
  match e with
  | .schedule now a => some (scheduleDebounce now a.owner a.repo a.releaseID a.installationID rp)
  | .expire id =>
    match rp.armed.find? (fun U => U.id = id) with
    | some T => some (timerExpires T rp)
    | none => none
  | .callback id =>
    match rp.firing.find? (fun U => U.id = id) with
    | some T => some (timerCallback T rp)
    | none => none

/-- A sequence of atomic steps. -/
def exec : List Event → ReleasePromoter → Option ReleasePromoter
  | [], rp => some rp
  | e :: es, rp => (step e rp).bind (exec es)

/-- Every armed timer is the timer recorded in the map under its key. -/
def ArmedRecorded (rp : ReleasePromoter) : Prop :=
  ∀ T ∈ rp.armed, rp.debounceTimer T.key = some T.id

instance (rp : ReleasePromoter) : Decidable (ArmedRecorded rp) := by
  unfold ArmedRecorded; infer_instance

/-! ### The timed sequential model: a callback runs atomically when its timer expires -/

/-- A timer fires: it expires and its callback runs at once. -/
def fire (T : Timer) (rp : ReleasePromoter) : ReleasePromoter :=
  timerCallback T (timerExpires T rp)

/-- The timers of a list fire one after the other. -/
def fireAll (l : List Timer) (rp : ReleasePromoter) : ReleasePromoter :=
  l.foldl (fun s T => fire T s) rp

/-- Earlier deadline first. -/
def Timer.le (T U : Timer) : Prop := T.deadline ≤ U.deadline

instance : DecidableRel Timer.le := fun T U => inferInstanceAs (Decidable (T.deadline ≤ U.deadline))

/-- Time passes up to instant `t`: every armed timer that is due fires, in the order of
the deadlines. -/
def advance (t : Nat) (rp : ReleasePromoter) : ReleasePromoter :=
  fireAll ((rp.armed.filter (fun T => T.deadline ≤ t)).insertionSort Timer.le) rp

/-- Time passes without bound: every armed timer fires, in the order of the deadlines. -/
def drain (rp : ReleasePromoter) : ReleasePromoter :=
  fireAll (rp.armed.insertionSort Timer.le) rp

/-- A call of `scheduleDebounce` and the instant it is made. -/
structure Call where
  time : Nat
  args : Args
deriving DecidableEq, Repr

/-- The call `scheduleDebounce(owner, repo, releaseID, installationID)` at instant `now`,
the four arguments taken together. -/
def schedule (now : Nat) (a : Args) (rp : ReleasePromoter) : ReleasePromoter :=
  scheduleDebounce now a.owner a.repo a.releaseID a.installationID rp

/-- The calls are made one after the other, time passing in between; a timer that is due
at the instant of a call fires before the call. -/
def run : List Call → ReleasePromoter → ReleasePromoter
  | [], rp => rp
  | c :: cs, rp => run cs (schedule c.time c.args (advance c.time rp))

/-- The `promoteRelease` executions of a whole timed run: the calls, then quiet. -/
def executions (cs : List Call) : List (Nat × Args) :=
  (drain (run cs (ReleasePromoter.init ""))).promoted

/-- The executions for one key. -/
def executionsFor (K : String) (cs : List Call) : List (Nat × Args) :=
  (executions cs).filter (fun e => e.2.key = K)

/-- The calls for one key. -/
def callsFor (K : String) (cs : List Call) : List Call :=
  cs.filter (fun c => c.args.key = K)

/-! ## The webhook handler -/

/-- A Go `error` value: `none` is `nil`, `some msg` an error with that message. -/
abbrev GoError := Option String

/-- The function `strings.HasPrefix`. -/
def HasPrefix (s pre : String) : Bool := pre.data.isPrefixOf s.data

/-- The function `strings.TrimPrefix`: `s` without the leading `pre`, or `s` itself when it
does not start with `pre`. -/
def TrimPrefix (s pre : String) : String :=
  if HasPrefix s pre then String.mk (s.data.drop pre.data.length) else s

/-- The value of one hexadecimal digit (`fromHexChar` of `encoding/hex`). -/
def fromHexChar (c : Char) : Option Nat :=
  if '0' ≤ c ∧ c ≤ '9' then some (c.toNat - '0'.toNat)
  else if 'a' ≤ c ∧ c ≤ 'f' then some (c.toNat - 'a'.toNat + 10)
  else if 'A' ≤ c ∧ c ≤ 'F' then some (c.toNat - 'A'.toNat + 10)
  else none

/-- Pairs of hexadecimal digits to bytes; `none` on a character that is no digit and on
an odd number of characters. -/
def hexDecode : List Char → Option Bytes
  | [] => some []
  | [_] => none
  | a :: b :: rest =>
    match fromHexChar a, fromHexChar b, hexDecode rest with
    | some x, some y, some bs => some ((x * 16 + y) :: bs)
    | _, _, _ => none

/-- The function `hex.DecodeString`; `none` stands for its error. -/
def hexDecodeString (s : String) : Option Bytes := hexDecode s.data

/-- The headers of a request. -/
abbrev Header := List (String × String)

/-- The method `Header.Get`: the value of a header, `""` when it is absent. -/
def Header.Get (h : Header) (key : String) : String :=
  match h.lookup key with
  | some v => v
  | none => ""

/-- What `Handle` reads of an `http.Request`. `Body` is what `io.ReadAll(r.Body)` gives:
`none` when reading fails. -/
structure Request where
  Method : String
  Header : Header
  Body : Option Bytes

/-- The struct `User` of go-github, as far as the handler reads it. -/
structure User where
  Login : Option String
deriving DecidableEq, Repr

/-- The struct `Repository` of go-github, as far as the handler reads it. -/
structure Repository where
  Name : Option String
  Owner : Option User
deriving DecidableEq, Repr

/-- The struct `ReleaseAsset` of go-github. -/
structure ReleaseAsset where
  ID : Option Int
deriving DecidableEq, Repr

/-- The struct `RepositoryRelease` of go-github, as far as the handler reads it. A `nil`
slice of assets and an empty one are both `[]`. -/
structure RepositoryRelease where
  ID : Option Int
  Name : Option String
  Prerelease : Option Bool
  Assets : List ReleaseAsset
deriving DecidableEq, Repr

/-- The struct `Installation` of go-github, as far as the handler reads it. -/
structure Installation where
  ID : Option Int
deriving DecidableEq, Repr

/-- The struct `ReleaseEvent` of go-github, as far as the handler reads it. -/
structure ReleaseEvent where
  Action : Option String
  Release : Option RepositoryRelease
  Repo : Option Repository
  Installation : Option Installation
deriving DecidableEq, Repr

/-- The accessor `GetAction`: `""` when the field is `nil`. -/
def ReleaseEvent.GetAction (e : ReleaseEvent) : String := e.Action.getD ""

/-- The accessor `GetRelease`. -/
def ReleaseEvent.GetRelease (e : ReleaseEvent) : Option RepositoryRelease := e.Release

/-- The accessor `GetRepo`. -/
def ReleaseEvent.GetRepo (e : ReleaseEvent) : Option Repository := e.Repo

/-- The accessor `GetInstallation`. -/
def ReleaseEvent.GetInstallation (e : ReleaseEvent) : Option Handler.Installation := e.Installation

/-- The accessor `GetPrerelease`: `false` when the field is `nil`. -/
def RepositoryRelease.GetPrerelease (r : RepositoryRelease) : Bool := r.Prerelease.getD false

/-- The accessor `GetID` of a release: `0` when the field is `nil`. -/
def RepositoryRelease.GetID (r : RepositoryRelease) : Int := r.ID.getD 0

/-- The accessor `GetID` of an installation: `0` on a `nil` receiver or field. -/
def installationGetID : Option Handler.Installation → Int
  | some i => i.ID.getD 0
  | none => 0

/-- The accessor `GetOwner` of a repository, on a receiver that may be `nil`. -/
def repoGetOwner : Option Repository → Option User
  | some r => r.Owner
  | none => none

/-- The accessor `GetName` of a repository: `""` on a `nil` receiver or field. -/
def repoGetName : Option Repository → String
  | some r => r.Name.getD ""
  | none => ""

/-- The accessor `GetLogin` of a user: `""` on a `nil` receiver or field. -/
def userGetLogin : Option User → String
  | some u => u.Login.getD ""
  | none => ""

/-- The fields of the ping payload that `handlePing` logs. -/
structure PingEvent where
  Zen : String
  HookID : Int
  AppID : Int
deriving DecidableEq, Repr

/-- The library code the handler calls. `hmacSHA256 key message` is the HMAC-SHA256
digest; `decodePing` and `decodeRelease` are what `json.Unmarshal` makes of a non-empty
body for the two payload types, `none` standing for its error. -/
structure Extern where
  hmacSHA256 : String → Bytes → Bytes
  decodePing : Bytes → Option PingEvent
  decodeRelease : Bytes → Option ReleaseEvent

/-- The function `json.Unmarshal`: empty input is an error ("unexpected end of JSON
input"); on any other input the decoder of the payload type decides. -/
def jsonUnmarshal {α : Type} (decode : Bytes → Option α) (data : Bytes) : Option α :=
  if data = [] then none else decode data

/-- The method `validateWebhook`. -/
def validateWebhook (ext : Extern) (rp : ReleasePromoter) (r : Request) (body : Bytes) : GoError :=
  let signature := r.Header.Get "X-Hub-Signature-256"
  if signature = "" then some "missing X-Hub-Signature-256 header"
  else if !HasPrefix signature "sha256=" then some "invalid signature format"
  else
    match hexDecodeString (TrimPrefix signature "sha256=") with
    | none => some "failed to decode signature"
    | some sig =>
      let expectedMAC := ext.hmacSHA256 rp.webhookSecret body
      if sig ≠ expectedMAC then some "webhook signature validation failed"
      else none

/-- The method `handleReleaseEdit`, called at instant `now`: the error it returns and the
promoter it leaves. -/
def handleReleaseEdit (now : Nat) (event : ReleaseEvent) (rp : ReleasePromoter) :
    GoError × ReleasePromoter :=
  if event.GetAction ≠ "edited" then (none, rp)
  else
    match event.GetRelease with
    | none => (some "release is nil", rp)
    | some release =>
      if !release.GetPrerelease then (none, rp)
      else
        let assets := release.Assets
        if assets.length = 0 then (none, rp)
        else
          let installationID := installationGetID event.GetInstallation
          if installationID = 0 then (some "no installation ID in webhook", rp)
          else
            let owner := userGetLogin (repoGetOwner event.GetRepo)
            let repo := repoGetName event.GetRepo
            let releaseID := release.GetID
            (none, scheduleDebounce now owner repo releaseID installationID rp)

/-- The method `handlePing`. -/
def handlePing (ext : Extern) (body : Bytes) : GoError :=
  match jsonUnmarshal ext.decodePing body with
  | none => some "failed to parse ping event"
  | some _ => none

/-- The steps of `Handle` that look at the request's content. -/
inductive Reached where
  | validateWebhook
  | handlePing
  | unmarshalRelease
  | handleReleaseEdit
deriving DecidableEq, Repr

/-- What a call of `Handle` does: the status and text it answers, the steps it went
through, and the promoter it leaves. -/
structure Handled where
  status : Nat
  text : String
  reached : List Reached
  rp : ReleasePromoter

/-- The function `Handle`, called at instant `now`. -/
def Handle (ext : Extern) (now : Nat) (r : Request) (rp : ReleasePromoter) : Handled :=
  if r.Method ≠ "POST" then ⟨405, "Method not allowed", [], rp⟩
  else
    match r.Body with
    | none => ⟨400, "Failed to read request body", [], rp⟩
    | some body =>
      match validateWebhook ext rp r body with
      | some _ => ⟨401, "Invalid webhook signature", [.validateWebhook], rp⟩
      | none =>
        let eventType := r.Header.Get "X-GitHub-Event"
        if eventType = "ping" then
          match handlePing ext body with
          | some _ => ⟨500, "Failed to process ping", [.validateWebhook, .handlePing], rp⟩
          | none => ⟨200, "Ping event processed", [.validateWebhook, .handlePing], rp⟩
        else if eventType = "release" then
          match jsonUnmarshal ext.decodeRelease body with
          | none => ⟨400, "Failed to parse event", [.validateWebhook, .unmarshalRelease], rp⟩
          | some event =>
            match handleReleaseEdit now event rp with
            | (some _, rp1) =>
              ⟨500, "Failed to process event",
                [.validateWebhook, .unmarshalRelease, .handleReleaseEdit], rp1⟩
            | (none, rp1) =>
              ⟨200, "Release edit event processed",
                [.validateWebhook, .unmarshalRelease, .handleReleaseEdit], rp1⟩
        else ⟨200, "Event type not handled", [.validateWebhook], rp⟩

/-! ## The action executor -/

/-- The `*github.Response` that `EditRelease` returns when it is not `nil`; `Body` is the
body of the embedded `http.Response`, `none` when that is `nil`. -/
structure Response where
  Body : Option Bytes
deriving DecidableEq, Repr

/-- What `EditRelease` returns to `promoteRelease`: the response (`none` is a `nil`
pointer) and the error. -/
structure EditResult where
  res : Option Response
  err : GoError
deriving DecidableEq, Repr

/-- How a run of `promoteRelease` ends when it returns. `failed` carries the response
body that was read for the log, if there was one. -/
inductive Outcome where
  | noClient
  | failed (diagnostics : Option Bytes)
  | promoted
deriving DecidableEq, Repr

/-- A run-time fault that ends the goroutine instead of a return. -/
inductive Fault where
  | nilDereference
deriving DecidableEq, Repr

/-- The method `promoteRelease`, given what `createInstallationClient` returns (`false`:
`nil`) and what `EditRelease` returns. The field access `res.Body` on a `nil` response is
a fault. -/
def promoteRelease (haveClient : Bool) (edit : EditResult) : Except Fault Outcome :=
  if !haveClient then .ok .noClient
  else
    match edit.err with
    | some _ =>
      match edit.res with
      | none => .error .nilDereference
      | some res =>
        match res.Body with
        | some body => .ok (.failed (some body))
        | none => .ok (.failed none)
    | none => .ok .promoted

/-! ## The sequential model, seen from one key

The definitions below serve the proofs about the timed sequential model. -/

/-- What the timed sequential model keeps true of the map and the armed timers. -/
structure Inv (rp : ReleasePromoter) : Prop where
  fresh : ∀ T ∈ rp.armed, T.id < rp.nextTimer
  nodup : (rp.armed.map Timer.id).Nodup
  recorded : ∀ T ∈ rp.armed, ∀ k, rp.debounceTimer k = some T.id ↔ k = T.key
  bounded : ∀ k i, rp.debounceTimer k = some i → i < rp.nextTimer

/-- The armed timers of a key. -/
def pending (K : String) (rp : ReleasePromoter) : List Timer :=
  rp.armed.filter (fun T => T.key = K)

/-- The executions recorded for a key. -/
def executed (K : String) (rp : ReleasePromoter) : List (Nat × Args) :=
  rp.promoted.filter (fun e => e.2.key = K)

/-- One key's side of the sequential model: the deadline and arguments of its armed
timer, if it has one, and its executions so far. -/
abbrev KeyState := Option (Nat × Args) × List (Nat × Args)

/-- The key's side of a state of the promoter. -/
def view (K : String) (rp : ReleasePromoter) : KeyState :=
  (((pending K rp).map (fun T => (T.deadline, T.args))).head?, executed K rp)

/-- Time passes up to `t`, seen from one key. -/
def keyAdvance (t : Nat) : KeyState → KeyState
  | (some x, E) => if x.1 ≤ t then (none, E ++ [x]) else (some x, E)
  | (none, E) => (none, E)

/-- A call, seen from one key. -/
def keySchedule (K : String) (c : Call) (s : KeyState) : KeyState :=
  if c.args.key = K then (some (c.time + debounceDelay, c.args), s.2) else s

/-- A run of calls, seen from one key. -/
def keyRun (K : String) : List Call → KeyState → KeyState
  | [], s => s
  | c :: cs, s => keyRun K cs (keySchedule K c (keyAdvance c.time s))

/-- The executions of a key once every timer has fired. -/
def keyDrain : KeyState → List (Nat × Args)
  | (some x, E) => E ++ [x]
  | (none, E) => E

/-! ## Sample values -/

/-- A stand-in for the library functions, to evaluate the handler on concrete requests:
every digest is the two bytes `de ad`, every non-empty body decodes as a ping payload, and
every non-empty body decodes as the release event that has the action `edited` and
nothing else. -/
def sampleExtern : Extern :=
  { hmacSHA256 := fun _ _ => [222, 173],
    decodePing := fun _ => some { Zen := "", HookID := 0, AppID := 0 },
    decodeRelease := fun _ =>
      some { Action := some "edited", Release := none, Repo := none, Installation := none } }

/-! ## Proofs: the timed sequential model -/

theorem inv_init (secret : String) : Inv (ReleasePromoter.init secret) := by
  constructor <;> simp [ReleasePromoter.init]

theorem fire_armed (T : Timer) (rp : ReleasePromoter) :
    (fire T rp).armed = rp.armed.filter (fun U => U.id ≠ T.id) := rfl

theorem fire_promoted (T : Timer) (rp : ReleasePromoter) :
    (fire T rp).promoted = rp.promoted ++ [(T.deadline, T.args)] := rfl

theorem fire_nextTimer (T : Timer) (rp : ReleasePromoter) :
    (fire T rp).nextTimer = rp.nextTimer := rfl

theorem fire_debounceTimer (T : Timer) (rp : ReleasePromoter) :
    (fire T rp).debounceTimer = fun k => if k = T.key then none else rp.debounceTimer k := rfl

theorem fireAll_armed (l : List Timer) (rp : ReleasePromoter) :
    (fireAll l rp).armed = rp.armed.filter (fun U => U.id ∉ l.map Timer.id) := by
  induction l generalizing rp with
  | nil => simp [fireAll]
  | cons T l ih =>
    have h : fireAll (T :: l) rp = fireAll l (fire T rp) := rfl
    rw [h, ih, fire_armed, List.filter_filter]
    apply List.filter_congr
    intro U _
    simp only [List.map_cons, List.mem_cons, not_or, ne_eq, Bool.decide_and, decide_not]
    rw [Bool.and_comm]

theorem fireAll_promoted (l : List Timer) (rp : ReleasePromoter) :
    (fireAll l rp).promoted = rp.promoted ++ l.map (fun T => (T.deadline, T.args)) := by
  induction l generalizing rp with
  | nil => simp [fireAll]
  | cons T l ih =>
    have h : fireAll (T :: l) rp = fireAll l (fire T rp) := rfl
    rw [h, ih, fire_promoted]
    simp

theorem inv_fire {rp : ReleasePromoter} (h : Inv rp) {T : Timer} (hT : T ∈ rp.armed) :
    Inv (fire T rp) := by
  have hsub : ∀ U ∈ (fire T rp).armed, U ∈ rp.armed ∧ U.id ≠ T.id := by
    intro U hU
    rw [fire_armed] at hU
    simpa using hU
  constructor
  · intro U hU
    rw [fire_nextTimer]
    exact h.fresh U (hsub U hU).1
  · rw [fire_armed]
    exact h.nodup.sublist ((List.filter_sublist _).map _)
  · intro U hU k
    obtain ⟨hUa, hne⟩ := hsub U hU
    rw [fire_debounceTimer]
    by_cases hk : k = T.key
    · subst hk
      simp only [if_true]
      refine ⟨fun hc => by simp at hc, fun hkey => ?_⟩
      exfalso
      have h1 := (h.recorded T hT T.key).2 rfl
      have h2 := (h.recorded U hUa T.key).2 hkey
      rw [h1] at h2
      exact hne (Option.some.inj h2).symm
    · simp only [hk, if_false]
      exact h.recorded U hUa k
  · intro k i hk
    rw [fire_debounceTimer] at hk
    rw [fire_nextTimer]
    by_cases hkT : k = T.key
    · simp [hkT] at hk
    · simp only [hkT, if_false] at hk
      exact h.bounded k i hk

theorem inv_fireAll (l : List Timer) {rp : ReleasePromoter} (h : Inv rp)
    (hsub : ∀ T ∈ l, T ∈ rp.armed) (hnd : (l.map Timer.id).Nodup) : Inv (fireAll l rp) := by
  induction l generalizing rp with
  | nil => exact h
  | cons T l ih =>
    have hstep : fireAll (T :: l) rp = fireAll l (fire T rp) := rfl
    rw [hstep]
    rw [List.map_cons, List.nodup_cons] at hnd
    apply ih (inv_fire h (hsub T (List.mem_cons_self _ _)))
    · intro U hU
      rw [fire_armed]
      simp only [List.mem_filter, ne_eq, decide_not, Bool.not_eq_true', decide_eq_false_iff_not]
      refine ⟨hsub U (List.mem_cons_of_mem _ hU), ?_⟩
      intro heq
      exact hnd.1 (heq ▸ List.mem_map_of_mem _ hU)
    · exact hnd.2

theorem schedule_promoted (now : Nat) (a : Args) (rp : ReleasePromoter) :
    (schedule now a rp).promoted = rp.promoted := by
  cases hm : rp.debounceTimer (debounceKey a.owner a.repo a.releaseID) <;>
    simp [schedule, scheduleDebounce, afterFunc, timerStop, Args.key, hm]

theorem schedule_nextTimer (now : Nat) (a : Args) (rp : ReleasePromoter) :
    (schedule now a rp).nextTimer = rp.nextTimer + 1 := by
  cases hm : rp.debounceTimer (debounceKey a.owner a.repo a.releaseID) <;>
    simp [schedule, scheduleDebounce, afterFunc, timerStop, Args.key, hm]

theorem schedule_debounceTimer (now : Nat) (a : Args) (rp : ReleasePromoter) :
    (schedule now a rp).debounceTimer
      = fun k => if k = a.key then some rp.nextTimer else rp.debounceTimer k := by
  cases hm : rp.debounceTimer (debounceKey a.owner a.repo a.releaseID) <;>
    simp [schedule, scheduleDebounce, afterFunc, timerStop, Args.key, hm]

theorem schedule_armed_raw (now : Nat) (a : Args) (rp : ReleasePromoter) :
    (schedule now a rp).armed
      = (match rp.debounceTimer a.key with
          | some t => rp.armed.filter (fun U => U.id ≠ t)
          | none => rp.armed)
        ++ [{ id := rp.nextTimer, args := a, deadline := now + debounceDelay }] := by
  cases hm : rp.debounceTimer (debounceKey a.owner a.repo a.releaseID) <;>
    simp [schedule, scheduleDebounce, afterFunc, timerStop, Args.key, hm]

/-- In the sequential model a call disarms exactly the armed timers of its key. -/
theorem schedule_armed {rp : ReleasePromoter} (h : Inv rp) (now : Nat) (a : Args) :
    (schedule now a rp).armed
      = rp.armed.filter (fun U => U.key ≠ a.key)
        ++ [{ id := rp.nextTimer, args := a, deadline := now + debounceDelay }] := by
  rw [schedule_armed_raw]
  congr 1
  cases hm : rp.debounceTimer a.key with
  | none =>
    simp only
    symm
    rw [List.filter_eq_self]
    intro U hU
    have := h.recorded U hU a.key
    simp only [ne_eq, decide_not, Bool.not_eq_true', decide_eq_false_iff_not]
    intro hk
    rw [hm] at this
    exact absurd (this.2 hk.symm) (by simp)
  | some t =>
    simp only
    apply List.filter_congr
    intro U hU
    have := h.recorded U hU a.key
    rw [hm] at this
    simp only [ne_eq, decide_not, Bool.not_eq_eq_eq_not, Bool.not_not, decide_eq_decide]
    constructor
    · intro hid
      subst hid
      exact (this.1 rfl).symm
    · intro hk
      exact (Option.some.inj (this.2 hk.symm)).symm

theorem inv_schedule {rp : ReleasePromoter} (h : Inv rp) (now : Nat) (a : Args) :
    Inv (schedule now a rp) := by
  have hmem : ∀ U ∈ (schedule now a rp).armed,
      (U ∈ rp.armed ∧ U.key ≠ a.key) ∨ U = ⟨rp.nextTimer, a, now + debounceDelay⟩ := by
    intro U hU
    rw [schedule_armed h] at hU
    simpa using hU
  constructor
  · intro U hU
    rw [schedule_nextTimer]
    rcases hmem U hU with ⟨hUa, _⟩ | rfl
    · exact Nat.lt_succ_of_lt (h.fresh U hUa)
    · exact Nat.lt_succ_self _
  · rw [schedule_armed h, List.map_append, List.nodup_append]
    refine ⟨h.nodup.sublist ((List.filter_sublist _).map _), by simp, ?_⟩
    intro i hi hi2
    simp only [List.map_cons, List.map_nil, List.mem_singleton] at hi2
    obtain ⟨U, hU, rfl⟩ := List.mem_map.1 hi
    exact absurd (h.fresh U (List.mem_filter.1 hU).1) (by omega)
  · intro U hU k
    rw [schedule_debounceTimer]
    rcases hmem U hU with ⟨hUa, hkey⟩ | rfl
    · by_cases hk : k = a.key
      · subst hk
        simp only [if_true]
        constructor
        · intro hc
          exact absurd (h.fresh U hUa) (by rw [← Option.some.inj hc]; exact Nat.lt_irrefl _)
        · intro hc
          exact absurd hc.symm hkey
      · simp only [hk, if_false]
        exact h.recorded U hUa k
    · by_cases hk : k = a.key
      · simp [hk, Timer.key]
      · simp only [hk, if_false, Timer.key, iff_false]
        intro hc
        exact absurd (h.bounded k _ hc) (Nat.lt_irrefl _)
  · intro k i hk
    rw [schedule_debounceTimer] at hk
    rw [schedule_nextTimer]
    by_cases hka : k = a.key
    · simp only [hka, if_true] at hk
      rw [← Option.some.inj hk]
      exact Nat.lt_succ_self _
    · simp only [hka, if_false] at hk
      exact Nat.lt_succ_of_lt (h.bounded k i hk)

theorem armed_id_inj {rp : ReleasePromoter} (h : Inv rp) {T U : Timer}
    (hT : T ∈ rp.armed) (hU : U ∈ rp.armed) (hid : T.id = U.id) : T = U :=
  List.inj_on_of_nodup_map h.nodup hT hU hid

theorem perm_eq_of_length_le_one {α : Type} {l₁ l₂ : List α} (hp : l₁.Perm l₂)
    (hl : l₂.length ≤ 1) : l₁ = l₂ := by
  match l₂, hl with
  | [], _ => exact hp.eq_nil
  | [a], _ => exact hp.eq_singleton
  | _ :: _ :: _, hl => simp at hl

theorem inv_fireAll_sorted {rp : ReleasePromoter} (h : Inv rp) (p : Timer → Bool) :
    Inv (fireAll ((rp.armed.filter p).insertionSort Timer.le) rp) := by
  have hp := List.perm_insertionSort Timer.le (rp.armed.filter p)
  apply inv_fireAll _ h
  · intro T hT
    exact (List.mem_filter.1 (hp.mem_iff.1 hT)).1
  · rw [(hp.map Timer.id).nodup_iff]
    exact h.nodup.sublist ((List.filter_sublist _).map _)

theorem fireAll_sorted_armed {rp : ReleasePromoter} (h : Inv rp) (p : Timer → Bool) :
    (fireAll ((rp.armed.filter p).insertionSort Timer.le) rp).armed
      = rp.armed.filter (fun U => !p U) := by
  have hp := List.perm_insertionSort Timer.le (rp.armed.filter p)
  rw [fireAll_armed]
  apply List.filter_congr
  intro U hU
  by_cases hpU : p U = true
  · have : U.id ∈ List.map Timer.id ((rp.armed.filter p).insertionSort Timer.le) :=
      List.mem_map_of_mem _ (hp.mem_iff.2 (List.mem_filter.2 ⟨hU, hpU⟩))
    simp [this, hpU]
  · have : U.id ∉ List.map Timer.id ((rp.armed.filter p).insertionSort Timer.le) := by
      intro hmem
      obtain ⟨V, hV, hid⟩ := List.mem_map.1 hmem
      have hV2 := List.mem_filter.1 (hp.mem_iff.1 hV)
      have := armed_id_inj h hV2.1 hU hid
      subst this
      exact hpU hV2.2
    simp [this, hpU]

theorem inv_advance {rp : ReleasePromoter} (h : Inv rp) (t : Nat) : Inv (advance t rp) :=
  inv_fireAll_sorted h _

theorem advance_armed {rp : ReleasePromoter} (h : Inv rp) (t : Nat) :
    (advance t rp).armed = rp.armed.filter (fun U => !decide (U.deadline ≤ t)) :=
  fireAll_sorted_armed h _

theorem drain_eq (rp : ReleasePromoter) :
    drain rp = fireAll ((rp.armed.filter (fun _ => true)).insertionSort Timer.le) rp := by
  simp [drain]

/-- In the sequential model a key has at most one armed timer. -/
theorem pending_length {rp : ReleasePromoter} (h : Inv rp) (K : String) :
    (pending K rp).length ≤ 1 := by
  have hnd : (pending K rp).Nodup := (List.Nodup.of_map _ h.nodup).sublist (List.filter_sublist _)
  have hall : ∀ T ∈ pending K rp, T ∈ rp.armed ∧ T.key = K := by
    intro T hT
    simpa [pending] using hT
  match hl : pending K rp with
  | [] => simp
  | [_] => simp
  | T :: U :: l =>
    exfalso
    rw [hl] at hnd hall
    have hT := hall T (by simp)
    have hU := hall U (by simp)
    have h1 := (h.recorded T hT.1 K).2 hT.2.symm
    have h2 := (h.recorded U hU.1 K).2 hU.2.symm
    rw [h1] at h2
    have := armed_id_inj h hT.1 hU.1 (Option.some.inj h2)
    subst this
    simp at hnd

theorem fireAll_sorted_executed {rp : ReleasePromoter} (h : Inv rp) (p : Timer → Bool)
    (K : String) :
    executed K (fireAll ((rp.armed.filter p).insertionSort Timer.le) rp)
      = executed K rp ++ ((pending K rp).filter p).map (fun T => (T.deadline, T.args)) := by
  have hp := List.perm_insertionSort Timer.le (rp.armed.filter p)
  have hlen : ((pending K rp).filter p).length ≤ 1 :=
    le_trans (List.length_filter_le _ _) (pending_length h K)
  have heq : ((rp.armed.filter p).insertionSort Timer.le).filter (fun T => T.key = K)
      = (pending K rp).filter p := by
    apply perm_eq_of_length_le_one _ hlen
    refine (hp.filter _).trans ?_
    unfold pending
    rw [List.filter_filter, List.filter_filter]
    apply List.Perm.of_eq
    apply List.filter_congr
    intro U _
    exact Bool.and_comm _ _
  unfold executed
  rw [fireAll_promoted, List.filter_append, List.filter_map, ← heq]
  rfl

theorem pending_advance {rp : ReleasePromoter} (h : Inv rp) (K : String) (t : Nat) :
    pending K (advance t rp) = (pending K rp).filter (fun U => !decide (U.deadline ≤ t)) := by
  unfold pending
  rw [advance_armed h, List.filter_filter, List.filter_filter]
  apply List.filter_congr
  intro U _
  exact Bool.and_comm _ _

theorem pending_schedule {rp : ReleasePromoter} (h : Inv rp) (K : String) (now : Nat) (a : Args) :
    pending K (schedule now a rp)
      = if a.key = K then [{ id := rp.nextTimer, args := a, deadline := now + debounceDelay }]
        else pending K rp := by
  unfold pending
  rw [schedule_armed h, List.filter_append, List.filter_filter]
  by_cases hk : a.key = K
  · subst hk
    simp [Timer.key]
  · have hk2 : ¬ (K = a.key) := fun e => hk e.symm
    simp only [hk, if_false]
    have h1 : List.filter (fun T => decide (T.key = K))
        [({ id := rp.nextTimer, args := a, deadline := now + debounceDelay } : Timer)] = [] := by
      simp [Timer.key, hk]
    rw [h1, List.append_nil]
    apply List.filter_congr
    intro U _
    by_cases hU : U.key = K
    · simp [hU, hk2]
    · simp [hU]

theorem view_advance {rp : ReleasePromoter} (h : Inv rp) (K : String) (t : Nat) :
    view K (advance t rp) = keyAdvance t (view K rp) := by
  have hl := pending_length h K
  have he := fireAll_sorted_executed h (fun T => decide (T.deadline ≤ t)) K
  have hp := pending_advance h K t
  unfold view
  rw [hp]
  change (_, executed K (fireAll _ rp)) = _
  rw [he]
  match hpk : pending K rp, hl with
  | [], _ => simp [keyAdvance]
  | [T], _ =>
    by_cases hd : T.deadline ≤ t
    · simp [keyAdvance, hd]
    · simp [keyAdvance, hd]
  | _ :: _ :: _, hl => simp at hl

theorem view_schedule {rp : ReleasePromoter} (h : Inv rp) (K : String) (c : Call) :
    view K (schedule c.time c.args rp) = keySchedule K c (view K rp) := by
  unfold view keySchedule
  rw [pending_schedule h]
  unfold executed
  rw [schedule_promoted]
  by_cases hk : c.args.key = K <;> simp [hk]

theorem view_run (K : String) (cs : List Call) {rp : ReleasePromoter} (h : Inv rp) :
    view K (run cs rp) = keyRun K cs (view K rp) ∧ Inv (run cs rp) := by
  induction cs generalizing rp with
  | nil => exact ⟨rfl, h⟩
  | cons c cs ih =>
    have h1 := inv_advance h c.time
    have h2 := inv_schedule h1 c.time c.args
    have := ih h2
    refine ⟨?_, this.2⟩
    change view K (run cs (schedule c.time c.args (advance c.time rp))) = _
    rw [this.1, view_schedule h1, view_advance h]
    rfl

theorem executed_drain {rp : ReleasePromoter} (h : Inv rp) (K : String) :
    executed K (drain rp) = keyDrain (view K rp) := by
  have hl := pending_length h K
  have he := fireAll_sorted_executed h (fun _ => true) K
  rw [drain_eq, he]
  unfold view
  match hpk : pending K rp, hl with
  | [], _ => simp [keyDrain]
  | [T], _ => simp [keyDrain]
  | _ :: _ :: _, hl => simp at hl

/-- The executions of a key in a timed run are those of the key's own side of the run. -/
theorem executionsFor_eq (K : String) (cs : List Call) :
    executionsFor K cs = keyDrain (keyRun K cs (none, [])) := by
  have h := view_run K cs (inv_init "")
  have hd := executed_drain h.2 K
  unfold executionsFor executions
  unfold executed at hd
  rw [hd, h.1]
  rfl

/-! ### One key's side of a run -/

theorem keyAdvance_absorb (s : KeyState) {t u : Nat} (h : t ≤ u) :
    keyAdvance u (keyAdvance t s) = keyAdvance u s := by
  obtain ⟨p, E⟩ := s
  cases p with
  | none => rfl
  | some x =>
    by_cases h1 : x.1 ≤ t
    · have h2 : x.1 ≤ u := le_trans h1 h
      simp [keyAdvance, h1, h2]
    · simp [keyAdvance, h1]

theorem keyDrain_advance (s : KeyState) (t : Nat) : keyDrain (keyAdvance t s) = keyDrain s := by
  obtain ⟨p, E⟩ := s
  cases p with
  | none => rfl
  | some x =>
    by_cases h1 : x.1 ≤ t <;> simp [keyAdvance, keyDrain, h1]

theorem keyRun_advance (K : String) (l : List Call) (s : KeyState) (t : Nat)
    (h : ∀ c ∈ l, t ≤ c.time) :
    keyDrain (keyRun K l (keyAdvance t s)) = keyDrain (keyRun K l s) := by
  cases l with
  | nil => exact keyDrain_advance s t
  | cons c l =>
    simp only [keyRun]
    rw [keyAdvance_absorb s (h c (List.mem_cons_self _ _))]

/-- Calls for other keys do not change what a key executes. -/
theorem keyRun_callsFor (K : String) (cs : List Call) (s : KeyState)
    (hs : cs.Pairwise (fun x y => x.time ≤ y.time)) :
    keyDrain (keyRun K cs s) = keyDrain (keyRun K (callsFor K cs) s) := by
  induction cs generalizing s with
  | nil => rfl
  | cons c cs ih =>
    rw [List.pairwise_cons] at hs
    by_cases hk : c.args.key = K
    · have : callsFor K (c :: cs) = c :: callsFor K cs := by simp [callsFor, hk]
      rw [this]
      simp only [keyRun]
      exact ih _ hs.2
    · have : callsFor K (c :: cs) = callsFor K cs := by simp [callsFor, hk]
      rw [this]
      simp only [keyRun, keySchedule, hk, if_false]
      rw [ih _ hs.2]
      apply keyRun_advance
      intro d hd
      exact hs.1 d (List.mem_filter.1 hd).1

theorem keyStep_not_due (K : String) (c : Call) (hk : c.args.key = K)
    (p : Option (Nat × Args)) (E : List (Nat × Args)) (hp : ∀ x, p = some x → c.time < x.1) :
    keySchedule K c (keyAdvance c.time (p, E)) = (some (c.time + debounceDelay, c.args), E) := by
  cases p with
  | none => simp [keyAdvance, keySchedule, hk]
  | some x =>
    have : ¬ x.1 ≤ c.time := Nat.not_le.2 (hp x rfl)
    simp [keyAdvance, keySchedule, hk, this]

/-- Calls of one key that each come before the pending timer is due leave one execution,
that of the last call. -/
theorem keyRun_rapid (K : String) (l : List Call) (hl : ∀ c ∈ l, c.args.key = K) (hne : l ≠ [])
    (hc : l.Chain' (fun x y => y.time < x.time + debounceDelay))
    (p : Option (Nat × Args)) (E : List (Nat × Args))
    (hp : ∀ x, p = some x → ∀ c ∈ l.head?, c.time < x.1) :
    keyDrain (keyRun K l (p, E))
      = E ++ [((l.getLast hne).time + debounceDelay, (l.getLast hne).args)] := by
  induction l generalizing p with
  | nil => exact absurd rfl hne
  | cons c l ih =>
    have hstep := keyStep_not_due K c (hl c (List.mem_cons_self _ _)) p E
      (fun x hx => hp x hx c (by simp))
    simp only [keyRun]
    rw [hstep]
    cases l with
    | nil => simp [keyRun, keyDrain]
    | cons d l =>
      rw [List.chain'_cons] at hc
      rw [List.getLast_cons (List.cons_ne_nil d l)]
      apply ih (fun e he => hl e (List.mem_cons_of_mem _ he)) (List.cons_ne_nil d l) hc.2
      intro x hx e he
      simp only [List.head?_cons, Option.mem_def, Option.some.injEq] at he
      subst he
      rw [← Option.some.inj hx]
      exact hc.1

theorem keyRun_append (K : String) (l₁ l₂ : List Call) (s : KeyState) :
    keyRun K (l₁ ++ l₂) s = keyRun K l₂ (keyRun K l₁ s) := by
  induction l₁ generalizing s with
  | nil => rfl
  | cons c l ih => exact ih _

theorem keyAdvance_bound (s : KeyState) (t b : Nat) (ht : t ≤ b) (hs : ∀ e ∈ s.2, e.1 ≤ b) :
    ∀ e ∈ (keyAdvance t s).2, e.1 ≤ b := by
  obtain ⟨p, E⟩ := s
  cases p with
  | none => exact hs
  | some x =>
    by_cases h1 : x.1 ≤ t
    · simp only [keyAdvance, h1, if_true, List.mem_append, List.mem_singleton]
      rintro e (he | rfl)
      · exact hs e he
      · exact le_trans h1 ht
    · simpa [keyAdvance, h1] using hs

theorem keyRun_bound (K : String) (l : List Call) (s : KeyState) (b : Nat)
    (hl : ∀ c ∈ l, c.time ≤ b) (hs : ∀ e ∈ s.2, e.1 ≤ b) :
    ∀ e ∈ (keyRun K l s).2, e.1 ≤ b := by
  induction l generalizing s with
  | nil => exact hs
  | cons c l ih =>
    simp only [keyRun]
    apply ih _ (fun d hd => hl d (List.mem_cons_of_mem _ hd))
    have := keyAdvance_bound s c.time b (hl c (List.mem_cons_self _ _)) hs
    unfold keySchedule
    split
    · exact this
    · exact this

/-- After the last call of a key, made at `c.time`, the key executes once more, at
`c.time + debounceDelay`, with the arguments of that call. -/
theorem keyRun_last (K : String) (l : List Call) (c : Call) (hk : c.args.key = K)
    (hl : ∀ d ∈ l, d.time ≤ c.time) :
    (keyDrain (keyRun K (l ++ [c]) (none, []))).filter (fun e => c.time < e.1)
      = [(c.time + debounceDelay, c.args)] := by
  have hb := keyRun_bound K l (none, []) c.time hl (by simp)
  have hb2 := keyAdvance_bound _ c.time c.time (le_refl _) hb
  rw [keyRun_append]
  simp only [keyRun, keySchedule, hk, if_true, keyDrain, List.filter_append]
  have h1 : List.filter (fun e => decide (c.time < e.1))
      (keyAdvance c.time (keyRun K l (none, []))).2 = [] := by
    rw [List.filter_eq_nil_iff]
    intro e he
    have := hb2 e he
    simp only [decide_eq_true_eq, not_lt]
    exact this
  have hpos : 0 < debounceDelay := by decide
  rw [h1]
  simp [hpos]

/-- What a key executes in a run is what it had executed before, followed by executions
of the timer that was armed before or of timers the calls of the run armed. -/
theorem keyRun_later (K : String) (l : List Call) (s : KeyState) :
    ∃ F, keyDrain (keyRun K l s) = s.2 ++ F
      ∧ ∀ f ∈ F, s.1 = some f ∨ ∃ d ∈ l, f.1 = d.time + debounceDelay := by
  induction l generalizing s with
  | nil =>
    obtain ⟨p, E⟩ := s
    cases p with
    | none => exact ⟨[], by simp [keyRun, keyDrain], by simp⟩
    | some x => exact ⟨[x], by simp [keyRun, keyDrain], by simp⟩
  | cons d l ih =>
    obtain ⟨F, hF, hmem⟩ := ih (keySchedule K d (keyAdvance d.time s))
    simp only [keyRun]
    rw [hF]
    have hlift : ∀ f : Nat × Args, (∃ e ∈ l, f.1 = e.time + debounceDelay) →
        ∃ e ∈ d :: l, f.1 = e.time + debounceDelay := by
      rintro f ⟨e, he, hfe⟩
      exact ⟨e, List.mem_cons_of_mem _ he, hfe⟩
    have hnew : ∀ f : Nat × Args, some (d.time + debounceDelay, d.args) = some f →
        ∃ e ∈ d :: l, f.1 = e.time + debounceDelay := by
      intro f hf
      exact ⟨d, List.mem_cons_self _ _, by rw [← Option.some.inj hf]⟩
    obtain ⟨p, E⟩ := s
    by_cases hk : d.args.key = K
    · cases p with
      | none =>
        refine ⟨F, by simp [keyAdvance, keySchedule, hk], ?_⟩
        intro f hf
        rcases hmem f hf with h | h
        · right
          exact hnew f (by simpa [keyAdvance, keySchedule, hk] using h)
        · exact Or.inr (hlift f h)
      | some x =>
        by_cases hx : x.1 ≤ d.time
        · refine ⟨x :: F, by simp [keyAdvance, keySchedule, hk, hx], ?_⟩
          intro f hf
          rcases List.mem_cons.1 hf with rfl | hf
          · exact Or.inl rfl
          · rcases hmem f hf with h | h
            · right
              exact hnew f (by simpa [keyAdvance, keySchedule, hk, hx] using h)
            · exact Or.inr (hlift f h)
        · refine ⟨F, by simp [keyAdvance, keySchedule, hk, hx], ?_⟩
          intro f hf
          rcases hmem f hf with h | h
          · right
            exact hnew f (by simpa [keyAdvance, keySchedule, hk, hx] using h)
          · exact Or.inr (hlift f h)
    · cases p with
      | none =>
        refine ⟨F, by simp [keyAdvance, keySchedule, hk], ?_⟩
        intro f hf
        rcases hmem f hf with h | h
        · simp [keyAdvance, keySchedule, hk] at h
        · exact Or.inr (hlift f h)
      | some x =>
        by_cases hx : x.1 ≤ d.time
        · refine ⟨x :: F, by simp [keyAdvance, keySchedule, hk, hx], ?_⟩
          intro f hf
          rcases List.mem_cons.1 hf with rfl | hf
          · exact Or.inl rfl
          · rcases hmem f hf with h | h
            · simp [keyAdvance, keySchedule, hk, hx] at h
            · exact Or.inr (hlift f h)
        · refine ⟨F, by simp [keyAdvance, keySchedule, hk, hx], ?_⟩
          intro f hf
          rcases hmem f hf with h | h
          · left
            simpa [keyAdvance, keySchedule, hk, hx] using h
          · exact Or.inr (hlift f h)

/-- An armed timer that is due before every call of the run executes first. -/
theorem keyRun_due_first (K : String) (l : List Call) (x : Nat × Args) (E : List (Nat × Args))
    (hl : ∀ d ∈ l, x.1 ≤ d.time) :
    ∃ F, keyDrain (keyRun K l (some x, E)) = E ++ x :: F
      ∧ ∀ f ∈ F, ∃ d ∈ l, f.1 = d.time + debounceDelay := by
  cases l with
  | nil => exact ⟨[], by simp [keyRun, keyDrain], by simp⟩
  | cons d l =>
    have hx : x.1 ≤ d.time := hl d (List.mem_cons_self _ _)
    obtain ⟨F, hF, hmem⟩ := keyRun_later K l (keySchedule K d (keyAdvance d.time (some x, E)))
    refine ⟨F, ?_, ?_⟩
    · simp only [keyRun]
      rw [hF]
      by_cases hk : d.args.key = K <;> simp [keyAdvance, keySchedule, hk, hx]
    · intro f hf
      rcases hmem f hf with h | ⟨e, he, hfe⟩
      · by_cases hk : d.args.key = K
        · refine ⟨d, List.mem_cons_self _ _, ?_⟩
          simp only [keyAdvance, hx, if_true, keySchedule, hk] at h
          rw [← Option.some.inj h]
        · simp [keyAdvance, keySchedule, hk, hx] at h
      · exact ⟨e, List.mem_cons_of_mem _ he, hfe⟩

/-- The state of a key right after one of its calls. -/
theorem keyRun_snoc (K : String) (l : List Call) (c : Call) (hk : c.args.key = K)
    (hl : ∀ d ∈ l, d.time ≤ c.time) :
    ∃ E, keyRun K (l ++ [c]) (none, []) = (some (c.time + debounceDelay, c.args), E)
      ∧ ∀ e ∈ E, e.1 ≤ c.time := by
  have hb := keyRun_bound K l (none, []) c.time hl (by simp)
  have hb2 := keyAdvance_bound _ c.time c.time (le_refl _) hb
  refine ⟨(keyAdvance c.time (keyRun K l (none, []))).2, ?_, hb2⟩
  rw [keyRun_append]
  simp [keyRun, keySchedule, hk]

/-- After a call of a key at `c.time`, when the key's later calls all come at
`c.time + debounceDelay` or later, the key executes exactly once in the time from
`c.time` (excluded) to `c.time + debounceDelay` (included): at the end of it, with the
arguments of that call. -/
theorem keyRun_window (K : String) (l₁ l₂ : List Call) (c : Call) (hk : c.args.key = K)
    (h₁ : ∀ d ∈ l₁, d.time ≤ c.time) (h₂ : ∀ d ∈ l₂, c.time + debounceDelay ≤ d.time) :
    (keyDrain (keyRun K (l₁ ++ c :: l₂) (none, []))).filter
        (fun e => c.time < e.1 ∧ e.1 ≤ c.time + debounceDelay)
      = [(c.time + debounceDelay, c.args)] := by
  obtain ⟨E, hE, hEb⟩ := keyRun_snoc K l₁ c hk h₁
  obtain ⟨F, hF, hFb⟩ := keyRun_due_first K l₂ (c.time + debounceDelay, c.args) E h₂
  have hsplit : l₁ ++ c :: l₂ = (l₁ ++ [c]) ++ l₂ := by simp
  rw [hsplit, keyRun_append, hE, hF]
  have hpos : 0 < debounceDelay := by decide
  have h1 : List.filter (fun e => decide (c.time < e.1 ∧ e.1 ≤ c.time + debounceDelay)) E = [] := by
    rw [List.filter_eq_nil_iff]
    intro e he
    have := hEb e he
    simp only [decide_eq_true_eq, not_and, not_le]
    intro hlt
    omega
  have h2 : List.filter (fun e => decide (c.time < e.1 ∧ e.1 ≤ c.time + debounceDelay)) F = [] := by
    rw [List.filter_eq_nil_iff]
    intro f hf
    obtain ⟨d, hd, hfd⟩ := hFb f hf
    have := h₂ d hd
    simp only [decide_eq_true_eq, not_and, not_le]
    intro _
    omega
  rw [List.filter_append, List.filter_cons, h1, h2]
  simp [hpos]

/-! ## The debounce key -/

/-- C2 (evaluated at the failing input): the release 42 of `acme-web/api` and the release
42 of `acme/web-api` get one key; a call for the second, one second after a call for the
first, stops the first's timer, and only the second release is ever promoted. -/
theorem debounceKey_collision :
    debounceKey "acme-web" "api" 42 = debounceKey "acme" "web-api" 42
    ∧ executions [⟨0, ⟨"acme-web", "api", 42, 7⟩⟩, ⟨Second, ⟨"acme", "web-api", 42, 7⟩⟩]
        = [(11 * Second, ⟨"acme", "web-api", 42, 7⟩)] := by
  constructor <;> decide

/-! ## The scheduler -/

/-- C1: in a timed run, whatever calls for other keys come in between, when the calls for
the key `K` are at least one and each comes less than `debounceDelay` (10 s) after the one
before, `promoteRelease` is executed for `K` exactly once, with the arguments of the last
of these calls (and `debounceDelay` after it). -/
theorem scheduleDebounce_rapid_calls_promote_once (K : String) (cs : List Call)
    (hsorted : cs.Pairwise (fun x y => x.time ≤ y.time))
    (hne : callsFor K cs ≠ [])
    (hrapid : (callsFor K cs).Chain' (fun x y => y.time < x.time + debounceDelay)) :
    executionsFor K cs
      = [(((callsFor K cs).getLast hne).time + debounceDelay,
          ((callsFor K cs).getLast hne).args)] := by
  rw [executionsFor_eq, keyRun_callsFor K cs _ hsorted]
  have h := keyRun_rapid K (callsFor K cs)
    (fun c hc => by simpa using (List.mem_filter.1 hc).2) hne hrapid none [] (by simp)
  simpa using h

/-- Three calls for `org1/repoA` release 42 at 0 s, 4 s and 13 s, a call for another
release in between: one execution, at 23 s, with the arguments of the third call. -/
theorem scheduleDebounce_rapid_calls_promote_once_witness :
    executionsFor "org1-repoA-42"
      [⟨0, ⟨"org1", "repoA", 42, 1⟩⟩, ⟨2 * Second, ⟨"org1", "repoB", 7, 1⟩⟩,
       ⟨4 * Second, ⟨"org1", "repoA", 42, 2⟩⟩, ⟨13 * Second, ⟨"org1", "repoA", 42, 3⟩⟩]
      = [(23 * Second, ⟨"org1", "repoA", 42, 3⟩)] :=
  scheduleDebounce_rapid_calls_promote_once "org1-repoA-42"
    [⟨0, ⟨"org1", "repoA", 42, 1⟩⟩, ⟨2 * Second, ⟨"org1", "repoB", 7, 1⟩⟩,
     ⟨4 * Second, ⟨"org1", "repoA", 42, 2⟩⟩, ⟨13 * Second, ⟨"org1", "repoA", 42, 3⟩⟩]
    (by decide) (by decide)
    (by
      have hcalls : callsFor "org1-repoA-42"
          [⟨0, ⟨"org1", "repoA", 42, 1⟩⟩, ⟨2 * Second, ⟨"org1", "repoB", 7, 1⟩⟩,
           ⟨4 * Second, ⟨"org1", "repoA", 42, 2⟩⟩, ⟨13 * Second, ⟨"org1", "repoA", 42, 3⟩⟩]
          = [⟨0, ⟨"org1", "repoA", 42, 1⟩⟩, ⟨4 * Second, ⟨"org1", "repoA", 42, 2⟩⟩,
             ⟨13 * Second, ⟨"org1", "repoA", 42, 3⟩⟩] := by decide
      rw [hcalls]
      simp [debounceDelay, Second])

theorem callsFor_split (K : String) (pre post : List Call) (c : Call) (hk : c.args.key = K) :
    callsFor K (pre ++ c :: post) = callsFor K pre ++ c :: callsFor K post := by
  unfold callsFor
  rw [List.filter_append, List.filter_cons]
  simp [hk]

/-- C4: in a timed run, when no call for the key of the call `c` comes after it before
`c.time + debounceDelay` (10 s), the key executes exactly once in the time from `c.time`
(excluded) to `c.time + debounceDelay` (included): at `c.time + debounceDelay`, with the
arguments of `c`, whenever the earlier calls were made; when `c` is the last call for its
key this is the key's only execution after `c.time`; and two calls for one key at 0 s and
3 s give exactly one execution, at 13 s, with the second call's arguments. -/
theorem scheduleDebounce_fires_full_delay_after_last_call :
    (∀ (pre post : List Call) (c : Call),
      (pre ++ c :: post).Pairwise (fun x y => x.time ≤ y.time) →
      (∀ d ∈ post, d.args.key = c.args.key → c.time + debounceDelay ≤ d.time) →
      (executionsFor c.args.key (pre ++ c :: post)).filter
          (fun e => c.time < e.1 ∧ e.1 ≤ c.time + debounceDelay)
        = [(c.time + debounceDelay, c.args)])
    ∧ (∀ (pre post : List Call) (c : Call),
      (pre ++ c :: post).Pairwise (fun x y => x.time ≤ y.time) →
      (∀ d ∈ post, d.args.key ≠ c.args.key) →
      (executionsFor c.args.key (pre ++ c :: post)).filter (fun e => c.time < e.1)
        = [(c.time + debounceDelay, c.args)])
    ∧ (∀ a b : Args, a.key = b.key →
        executionsFor b.key [⟨0, a⟩, ⟨3 * Second, b⟩] = [(13 * Second, b)]) := by
  have hpre : ∀ (pre post : List Call) (c : Call),
      (pre ++ c :: post).Pairwise (fun x y => x.time ≤ y.time) →
      ∀ d ∈ callsFor c.args.key pre, d.time ≤ c.time := by
    intro pre post c hsorted d hd
    exact (List.pairwise_append.1 hsorted).2.2 d (List.mem_filter.1 hd).1 c
      (List.mem_cons_self _ _)
  refine ⟨?_, ?_, ?_⟩
  · intro pre post c hsorted hlater
    rw [executionsFor_eq, keyRun_callsFor _ _ _ hsorted, callsFor_split _ _ _ _ rfl]
    apply keyRun_window _ _ _ _ rfl (hpre pre post c hsorted)
    intro d hd
    have hd2 := List.mem_filter.1 hd
    exact hlater d hd2.1 (by simpa using hd2.2)
  · intro pre post c hsorted hlast
    have hpost : callsFor c.args.key post = [] := by
      unfold callsFor
      rw [List.filter_eq_nil_iff]
      intro d hd
      simpa using hlast d hd
    rw [executionsFor_eq, keyRun_callsFor _ _ _ hsorted, callsFor_split _ _ _ _ rfl, hpost]
    exact keyRun_last _ _ _ rfl (hpre pre post c hsorted)
  · intro a b hab
    rw [executionsFor_eq]
    have h1 := keyStep_not_due b.key ⟨0, a⟩ hab none [] (by simp)
    have h2 := keyStep_not_due b.key ⟨3 * Second, b⟩ rfl (some (0 + debounceDelay, a)) []
      (by
        intro x hx
        rw [← Option.some.inj hx]
        show 3 * Second < 0 + debounceDelay
        decide)
    simp only [keyRun]
    rw [h1, h2]
    have h3 : 3 * Second + debounceDelay = 13 * Second := by decide
    simp only [keyDrain, List.nil_append, h3]

/-- Calls for `org1/repoA` release 42 at 0 s, 12 s, 15 s and 25 s: between 15 s and 25 s
the key executes once, at 25 s, with the arguments of the call at 15 s. -/
theorem scheduleDebounce_fires_full_delay_after_last_call_witness :
    (executionsFor "org1-repoA-42"
      [⟨0, ⟨"org1", "repoA", 42, 1⟩⟩, ⟨12 * Second, ⟨"org1", "repoA", 42, 2⟩⟩,
       ⟨15 * Second, ⟨"org1", "repoA", 42, 3⟩⟩, ⟨16 * Second, ⟨"org1", "repoB", 7, 1⟩⟩,
       ⟨25 * Second, ⟨"org1", "repoA", 42, 4⟩⟩]).filter
        (fun e => 15 * Second < e.1 ∧ e.1 ≤ 15 * Second + debounceDelay)
      = [(15 * Second + debounceDelay, ⟨"org1", "repoA", 42, 3⟩)] :=
  scheduleDebounce_fires_full_delay_after_last_call.1
    [⟨0, ⟨"org1", "repoA", 42, 1⟩⟩, ⟨12 * Second, ⟨"org1", "repoA", 42, 2⟩⟩]
    [⟨16 * Second, ⟨"org1", "repoB", 7, 1⟩⟩, ⟨25 * Second, ⟨"org1", "repoA", 42, 4⟩⟩]
    ⟨15 * Second, ⟨"org1", "repoA", 42, 3⟩⟩ (by decide) (by decide)

/-- C3 (evaluated at the failing input): the timer of a first call expires, a second call
for the key comes before the callback takes the lock, the callback then deletes the entry
of the second call's timer; that timer stays armed without being recorded, a third call
does not find it, and the key has two armed timers, which both fire: the calls at 10 s
and 11 s are not coalesced. -/
theorem clearDebounceTimer_deletes_newer_entry :
    (exec [.schedule 0 ⟨"org1", "repoA", 42, 1⟩, .expire 0,
           .schedule (10 * Second) ⟨"org1", "repoA", 42, 1⟩, .callback 0]
        (ReleasePromoter.init "")).map
      (fun rp => (rp.armed.map Timer.id, rp.debounceTimer "org1-repoA-42", decide (ArmedRecorded rp)))
      = some ([1], none, false)
    ∧ (exec [.schedule 0 ⟨"org1", "repoA", 42, 1⟩, .expire 0,
           .schedule (10 * Second) ⟨"org1", "repoA", 42, 1⟩, .callback 0,
           .schedule (11 * Second) ⟨"org1", "repoA", 42, 1⟩]
        (ReleasePromoter.init "")).map
      (fun rp => ((pending "org1-repoA-42" rp).map Timer.id, rp.debounceTimer "org1-repoA-42",
        decide (ArmedRecorded rp)))
      = some ([1, 2], some 2, false)
    ∧ (exec [.schedule 0 ⟨"org1", "repoA", 42, 1⟩, .expire 0,
           .schedule (10 * Second) ⟨"org1", "repoA", 42, 1⟩, .callback 0,
           .schedule (11 * Second) ⟨"org1", "repoA", 42, 1⟩,
           .expire 1, .callback 1, .expire 2, .callback 2]
        (ReleasePromoter.init "")).map (fun rp => rp.promoted.map Prod.fst)
      = some [10 * Second, 20 * Second, 21 * Second] := by
  refine ⟨by decide, by decide, by decide⟩

/-! ## The signature check -/

theorem hasPrefix_iff (s pre : String) : HasPrefix s pre = true ↔ ∃ rest : String, s = pre ++ rest := by
  unfold HasPrefix
  rw [List.isPrefixOf_iff_prefix]
  constructor
  · rintro ⟨t, ht⟩
    exact ⟨String.mk t, String.ext ht.symm⟩
  · rintro ⟨rest, rfl⟩
    exact ⟨rest.data, rfl⟩

theorem trimPrefix_append (pre rest : String) : TrimPrefix (pre ++ rest) pre = rest := by
  have h : HasPrefix (pre ++ rest) pre = true := (hasPrefix_iff _ _).2 ⟨rest, rfl⟩
  unfold TrimPrefix
  rw [if_pos h]
  apply String.ext
  show List.drop pre.data.length (pre.data ++ rest.data) = rest.data
  exact List.drop_left _ _

theorem headerGet_absent (h : Header) (key : String) (habs : h.lookup key = none) :
    h.Get key = "" := by
  unfold Header.Get
  rw [habs]

/-- C5: `validateWebhook` returns no error if and only if the `X-Hub-Signature-256` header
is not empty, is `"sha256="` followed by a remainder, the remainder hex-decodes, and the
decoded bytes are the HMAC-SHA256 of the body under the webhook secret; an absent header,
a header without the prefix, a remainder that does not decode, and a digest that differs
each give an error. -/
theorem validateWebhook_accepts_iff (ext : Extern) (rp : ReleasePromoter) (r : Request)
    (body : Bytes) :
    (validateWebhook ext rp r body = none ↔
      r.Header.Get "X-Hub-Signature-256" ≠ "" ∧
      ∃ rest : String, r.Header.Get "X-Hub-Signature-256" = "sha256=" ++ rest ∧
        ∃ mac, hexDecodeString rest = some mac ∧ mac = ext.hmacSHA256 rp.webhookSecret body)
    ∧ (r.Header.lookup "X-Hub-Signature-256" = none → validateWebhook ext rp r body ≠ none)
    ∧ (HasPrefix (r.Header.Get "X-Hub-Signature-256") "sha256=" = false →
        validateWebhook ext rp r body ≠ none)
    ∧ (hexDecodeString (TrimPrefix (r.Header.Get "X-Hub-Signature-256") "sha256=") = none →
        validateWebhook ext rp r body ≠ none)
    ∧ (∀ mac, hexDecodeString (TrimPrefix (r.Header.Get "X-Hub-Signature-256") "sha256=") = some mac →
        mac ≠ ext.hmacSHA256 rp.webhookSecret body → validateWebhook ext rp r body ≠ none) := by
  refine ⟨?_, ?_, ?_, ?_, ?_⟩
  · constructor
    · intro hv
      unfold validateWebhook at hv
      simp only at hv
      split at hv
      · simp at hv
      · rename_i hne
        split at hv
        · simp at hv
        · rename_i hpre
          simp only [Bool.not_eq_true, Bool.not_eq_false_eq_eq_true] at hpre
          obtain ⟨rest, hrest⟩ := (hasPrefix_iff _ _).1 (by simpa using hpre)
          refine ⟨hne, rest, hrest, ?_⟩
          rw [hrest, trimPrefix_append] at hv
          cases hd : hexDecodeString rest with
          | none => rw [hd] at hv; simp at hv
          | some mac =>
            rw [hd] at hv
            simp only at hv
            split at hv
            · simp at hv
            · rename_i heq
              exact ⟨mac, rfl, not_not.1 heq⟩
    · rintro ⟨hne, rest, hrest, mac, hdec, hmac⟩
      have hpre : HasPrefix (r.Header.Get "X-Hub-Signature-256") "sha256=" = true :=
        (hasPrefix_iff _ _).2 ⟨rest, hrest⟩
      unfold validateWebhook
      simp only [hne, if_false, hpre, Bool.not_true, Bool.false_eq_true]
      rw [hrest, trimPrefix_append, hdec]
      simp [hmac]
  · intro habs
    have := headerGet_absent r.Header _ habs
    unfold validateWebhook
    simp [this]
  · intro hpre
    unfold validateWebhook
    simp only [hpre]
    split <;> simp
  · intro hdec
    unfold validateWebhook
    simp only [hdec]
    split
    · simp
    · split <;> simp
  · intro mac hdec hne
    unfold validateWebhook
    simp only [hdec]
    split
    · simp
    · split
      · simp
      · simp [hne]

/-! ## The handler -/

/-- C6: on a POST request whose body was read and on which `validateWebhook` returns an
error, `Handle` answers 401 whatever the event type and the body, goes through no step
after `validateWebhook` (neither `handlePing` nor the parsing of a release event nor
`handleReleaseEdit`), and leaves the promoter, its `debounceTimer` map included, as it
was. -/
theorem Handle_invalid_signature (ext : Extern) (now : Nat) (r : Request)
    (rp : ReleasePromoter) (body : Bytes)
    (hm : r.Method = "POST") (hb : r.Body = some body)
    (hv : validateWebhook ext rp r body ≠ none) :
    (Handle ext now r rp).status = 401
    ∧ (Handle ext now r rp).reached = [Reached.validateWebhook]
    ∧ (Handle ext now r rp).rp = rp
    ∧ (Handle ext now r rp).rp.debounceTimer = rp.debounceTimer := by
  unfold Handle
  rw [hb]
  cases hval : validateWebhook ext rp r body with
  | none => exact absurd hval hv
  | some e => simp [hm, hval]

/-- A request signed `"sha256_bad"` for an event of type `release`: 401. -/
theorem Handle_invalid_signature_witness :
    validateWebhook sampleExtern (ReleasePromoter.init "secret")
        ⟨"POST", [("X-Hub-Signature-256", "sha256_bad"), ("X-GitHub-Event", "release")],
          some [123, 125]⟩ [123, 125] = some "invalid signature format"
    ∧ (Handle sampleExtern 0
        ⟨"POST", [("X-Hub-Signature-256", "sha256_bad"), ("X-GitHub-Event", "release")],
          some [123, 125]⟩ (ReleasePromoter.init "secret")).status = 401 :=
  ⟨by decide,
   (Handle_invalid_signature sampleExtern 0
      ⟨"POST", [("X-Hub-Signature-256", "sha256_bad"), ("X-GitHub-Event", "release")],
        some [123, 125]⟩ (ReleasePromoter.init "secret") [123, 125] rfl rfl (by decide)).1⟩

/-- C7 (as stated, false): a POST request of type `ping` with a valid signature and an
empty body; `handlePing` yields an error and `Handle` answers 500, not 200. -/
theorem Handle_ping_empty_body :
    validateWebhook sampleExtern (ReleasePromoter.init "secret")
        ⟨"POST", [("X-Hub-Signature-256", "sha256=dead"), ("X-GitHub-Event", "ping")], some []⟩ []
      = none
    ∧ Header.Get [("X-Hub-Signature-256", "sha256=dead"), ("X-GitHub-Event", "ping")]
        "X-GitHub-Event" = "ping"
    ∧ handlePing sampleExtern [] = some "failed to parse ping event"
    ∧ (Handle sampleExtern 0
        ⟨"POST", [("X-Hub-Signature-256", "sha256=dead"), ("X-GitHub-Event", "ping")], some []⟩
        (ReleasePromoter.init "secret")).status = 500 := by
  refine ⟨by decide, by decide, by decide, by decide⟩

/-- C7 (amended): on a POST request whose body was read, that passes `validateWebhook` and
has event type `ping`, `Handle` goes through `handlePing` only and leaves the promoter,
its `debounceTimer` map included, as it was; when `json.Unmarshal` accepts the body,
`handlePing` yields no error and `Handle` answers 200; when it rejects the body,
`handlePing` yields an error and `Handle` answers 500. -/
theorem Handle_ping (ext : Extern) (now : Nat) (r : Request) (rp : ReleasePromoter)
    (body : Bytes) (hm : r.Method = "POST") (hb : r.Body = some body)
    (hv : validateWebhook ext rp r body = none)
    (he : r.Header.Get "X-GitHub-Event" = "ping") :
    (Handle ext now r rp).rp = rp
    ∧ (Handle ext now r rp).rp.debounceTimer = rp.debounceTimer
    ∧ (Handle ext now r rp).reached = [Reached.validateWebhook, Reached.handlePing]
    ∧ (jsonUnmarshal ext.decodePing body ≠ none →
        handlePing ext body = none ∧ (Handle ext now r rp).status = 200)
    ∧ (jsonUnmarshal ext.decodePing body = none →
        handlePing ext body ≠ none ∧ (Handle ext now r rp).status = 500) := by
  unfold Handle
  rw [hb]
  simp only [hm, hv, he]
  cases hp : jsonUnmarshal ext.decodePing body with
  | none => simp [handlePing, hp]
  | some p => simp [handlePing, hp]

/-- A signed ping with body `{}`: 200, and the promoter is as it was. -/
theorem Handle_ping_witness :
    (Handle sampleExtern 0
        ⟨"POST", [("X-Hub-Signature-256", "sha256=dead"), ("X-GitHub-Event", "ping")],
          some [123, 125]⟩ (ReleasePromoter.init "secret")).status = 200 :=
  ((Handle_ping sampleExtern 0
      ⟨"POST", [("X-Hub-Signature-256", "sha256=dead"), ("X-GitHub-Event", "ping")],
        some [123, 125]⟩ (ReleasePromoter.init "secret") [123, 125] rfl rfl (by decide)
      (by decide)).2.2.2.1 (by decide)).2

theorem scheduleDebounce_ne (now : Nat) (owner repo : String) (releaseID installationID : Int)
    (rp : ReleasePromoter) : scheduleDebounce now owner repo releaseID installationID rp ≠ rp := by
  intro h
  have h1 := schedule_nextTimer now ⟨owner, repo, releaseID, installationID⟩ rp
  unfold schedule at h1
  simp only at h1
  rw [h] at h1
  omega

theorem handleReleaseEdit_eligible (now : Nat) (event : ReleaseEvent) (rp : ReleasePromoter)
    (release : RepositoryRelease) (hr : event.Release = some release)
    (ha : event.GetAction = "edited") (hp : release.Prerelease = some true)
    (hassets : release.Assets ≠ []) (hi : installationGetID event.Installation ≠ 0) :
    handleReleaseEdit now event rp
      = (none, scheduleDebounce now (userGetLogin (repoGetOwner event.Repo))
          (repoGetName event.Repo) (release.ID.getD 0) (installationGetID event.Installation) rp) := by
  have hlen : release.Assets.length ≠ 0 := by
    intro h
    exact hassets (List.length_eq_zero.1 h)
  unfold handleReleaseEdit
  simp [ha, ReleaseEvent.GetRelease, hr, RepositoryRelease.GetPrerelease, hp, hlen,
    ReleaseEvent.GetInstallation, hi, ReleaseEvent.GetRepo, RepositoryRelease.GetID, hassets]

theorem handleReleaseEdit_unchanged (now : Nat) (event : ReleaseEvent) (rp : ReleasePromoter)
    (h : ¬ (event.GetAction = "edited" ∧
      (∃ release, event.Release = some release ∧ release.Prerelease = some true
        ∧ release.Assets ≠ []) ∧
      installationGetID event.Installation ≠ 0)) :
    (handleReleaseEdit now event rp).2 = rp := by
  unfold handleReleaseEdit
  split
  · rfl
  · rename_i ha
    have ha2 : event.GetAction = "edited" := not_not.1 ha
    cases hr : event.Release with
    | none => simp [ReleaseEvent.GetRelease, hr]
    | some release =>
      simp only [ReleaseEvent.GetRelease, hr]
      split
      · rfl
      · rename_i hp
        split
        · rfl
        · rename_i hlen
          split
          · rfl
          · rename_i hi
            exfalso
            apply h
            refine ⟨ha2, ⟨release, hr, ?_, ?_⟩, ?_⟩
            · cases hpre : release.Prerelease with
              | none => simp [RepositoryRelease.GetPrerelease, hpre] at hp
              | some b => cases b <;> simp [RepositoryRelease.GetPrerelease, hpre] at hp ⊢
            · intro hnil
              exact hlen (by rw [hnil]; rfl)
            · exact hi

/-- C8: `handleReleaseEdit` changes the promoter if and only if the action is `"edited"`,
the release is present with `prerelease = true` and at least one asset, and the
installation ID is not zero; it then is exactly one call of `scheduleDebounce` with the
event's owner login, repository name, release ID and installation ID, and no error is
returned. An event whose release is not a prerelease schedules nothing and returns no
error, and `Handle` answers 200 to a valid request of type `release` carrying it. -/
theorem handleReleaseEdit_schedules_iff_eligible (ext : Extern) (now : Nat)
    (event : ReleaseEvent) (rp : ReleasePromoter) :
    ((handleReleaseEdit now event rp).2 ≠ rp ↔
      event.GetAction = "edited" ∧
      (∃ release, event.Release = some release ∧ release.Prerelease = some true
        ∧ release.Assets ≠ []) ∧
      installationGetID event.Installation ≠ 0)
    ∧ (∀ release, event.Release = some release → event.GetAction = "edited" →
        release.Prerelease = some true → release.Assets ≠ [] →
        installationGetID event.Installation ≠ 0 →
        handleReleaseEdit now event rp
          = (none, scheduleDebounce now (userGetLogin (repoGetOwner event.Repo))
              (repoGetName event.Repo) (release.ID.getD 0)
              (installationGetID event.Installation) rp))
    ∧ (∀ release, event.Release = some release → release.GetPrerelease = false →
        handleReleaseEdit now event rp = (none, rp)
        ∧ ∀ (r : Request) (body : Bytes), r.Method = "POST" → r.Body = some body →
            validateWebhook ext rp r body = none →
            r.Header.Get "X-GitHub-Event" = "release" →
            jsonUnmarshal ext.decodeRelease body = some event →
            (Handle ext now r rp).status = 200 ∧ (Handle ext now r rp).rp = rp) := by
  refine ⟨⟨?_, ?_⟩, ?_, ?_⟩
  · intro hne
    by_contra hcon
    exact hne (handleReleaseEdit_unchanged now event rp hcon)
  · rintro ⟨ha, ⟨release, hr, hp, hassets⟩, hi⟩
    rw [handleReleaseEdit_eligible now event rp release hr ha hp hassets hi]
    exact scheduleDebounce_ne _ _ _ _ _ _
  · intro release hr ha hp hassets hi
    exact handleReleaseEdit_eligible now event rp release hr ha hp hassets hi
  · intro release hr hp
    have hedit : handleReleaseEdit now event rp = (none, rp) := by
      unfold handleReleaseEdit
      split
      · rfl
      · simp [ReleaseEvent.GetRelease, hr, hp]
    refine ⟨hedit, ?_⟩
    intro r body hm hb hv he hj
    unfold Handle
    rw [hb]
    simp [hm, hv, he, hj, hedit]

/-- An edit of the prerelease 42 of `org1/repoA`, with one asset, from installation 9: one
call of `scheduleDebounce` with `("org1", "repoA", 42, 9)`. -/
theorem handleReleaseEdit_schedules_iff_eligible_witness :
    handleReleaseEdit 0
        { Action := some "edited",
          Release := some { ID := some 42, Name := some "v1", Prerelease := some true,
                            Assets := [{ ID := some 1 }] },
          Repo := some { Name := some "repoA", Owner := some { Login := some "org1" } },
          Installation := some { ID := some 9 } }
        (ReleasePromoter.init "secret")
      = (none, scheduleDebounce 0 "org1" "repoA" 42 9 (ReleasePromoter.init "secret")) :=
  (handleReleaseEdit_schedules_iff_eligible sampleExtern 0
      { Action := some "edited",
        Release := some { ID := some 42, Name := some "v1", Prerelease := some true,
                          Assets := [{ ID := some 1 }] },
        Repo := some { Name := some "repoA", Owner := some { Login := some "org1" } },
        Installation := some { ID := some 9 } }
      (ReleasePromoter.init "secret")).2.1
    { ID := some 42, Name := some "v1", Prerelease := some true, Assets := [{ ID := some 1 }] }
    rfl (by decide) rfl (by decide) (by decide)

/-- C9 (as stated, false): an `"edited"` event without a release does not pass the
eligibility predicate (there is no prerelease), carries an installation ID, and
`handleReleaseEdit` returns an error all the same. -/
theorem handleReleaseEdit_nil_release_is_error :
    (handleReleaseEdit 0
        { Action := some "edited", Release := none, Repo := none,
          Installation := some { ID := some 9 } }
        (ReleasePromoter.init "secret")).1 = some "release is nil"
    ∧ ¬ (∃ release : RepositoryRelease,
          (none : Option RepositoryRelease) = some release ∧ release.GetPrerelease = true
            ∧ release.Assets ≠ [])
    ∧ installationGetID (some { ID := some 9 }) ≠ 0 := by
  refine ⟨by decide, ?_, by decide⟩
  rintro ⟨release, h, _⟩
  exact absurd h (by simp)

/-- C9 (amended): `handleReleaseEdit` returns an error exactly when the action is
`"edited"` and either the event carries no release, or the release is a prerelease with
at least one asset and the installation ID is zero; when the action is not `"edited"`, or
the release is present and not a prerelease, or present without assets, it returns no
error, whatever the installation ID. -/
theorem handleReleaseEdit_error_iff (now : Nat) (event : ReleaseEvent) (rp : ReleasePromoter) :
    ((handleReleaseEdit now event rp).1 ≠ none ↔
      event.GetAction = "edited" ∧
      (event.Release = none ∨
        ∃ release, event.Release = some release ∧ release.GetPrerelease = true
          ∧ release.Assets ≠ [] ∧ installationGetID event.Installation = 0))
    ∧ (event.GetAction ≠ "edited" → (handleReleaseEdit now event rp).1 = none)
    ∧ (∀ release, event.Release = some release → release.GetPrerelease = false →
        (handleReleaseEdit now event rp).1 = none)
    ∧ (∀ release, event.Release = some release → release.Assets = [] →
        (handleReleaseEdit now event rp).1 = none) := by
  refine ⟨?_, ?_, ?_, ?_⟩
  · unfold handleReleaseEdit
    by_cases ha : event.GetAction = "edited"
    · cases hr : event.Release with
      | none => simp [ha, ReleaseEvent.GetRelease, hr]
      | some release =>
        by_cases hp : release.GetPrerelease = true
        · by_cases hassets : release.Assets = []
          · simp [ha, ReleaseEvent.GetRelease, hr, hp, hassets]
          · by_cases hi : installationGetID event.Installation = 0
            · simp [ha, ReleaseEvent.GetRelease, hr, hp, hassets, hi,
                ReleaseEvent.GetInstallation]
            · simp [ha, ReleaseEvent.GetRelease, hr, hp, hassets, hi,
                ReleaseEvent.GetInstallation]
        · simp [ha, ReleaseEvent.GetRelease, hr, hp]
    · simp [ha]
  · intro ha
    unfold handleReleaseEdit
    simp [ha]
  · intro release hr hp
    unfold handleReleaseEdit
    split
    · rfl
    · simp [ReleaseEvent.GetRelease, hr, hp]
  · intro release hr hassets
    unfold handleReleaseEdit
    split
    · rfl
    · simp only [ReleaseEvent.GetRelease, hr]
      split
      · rfl
      · simp [hassets]

/-- An `"edited"` event for a release that is not a prerelease, without installation:
no error. -/
theorem handleReleaseEdit_error_iff_witness :
    (handleReleaseEdit 0
        { Action := some "edited",
          Release := some { ID := some 42, Name := some "v1", Prerelease := some false,
                            Assets := [{ ID := some 1 }] },
          Repo := none, Installation := none }
        (ReleasePromoter.init "secret")).1 = none :=
  (handleReleaseEdit_error_iff 0
      { Action := some "edited",
        Release := some { ID := some 42, Name := some "v1", Prerelease := some false,
                          Assets := [{ ID := some 1 }] },
        Repo := none, Installation := none }
      (ReleasePromoter.init "secret")).2.2.1
    { ID := some 42, Name := some "v1", Prerelease := some false, Assets := [{ ID := some 1 }] }
    rfl rfl

/-! ## The action executor -/

/-- C10 (evaluated at the failing input): when `EditRelease` returns an error and a `nil`
response, `promoteRelease` does not return: reading `res.Body` is a nil dereference. With
a response present it returns a failure, having read the body when there is one. -/
theorem promoteRelease_nil_response_faults :
    promoteRelease true { res := none, err := some "dial tcp: connection refused" }
      = .error Fault.nilDereference
    ∧ (∀ (res : Response) (e : String),
        promoteRelease true { res := some res, err := some e } = .ok (Outcome.failed res.Body)) := by
  refine ⟨rfl, ?_⟩
  intro res e
  unfold promoteRelease
  cases h : res.Body <;> simp [h]

end Handler
